import Mathlib

/-!
Verification of the Clustering-company correlation service.

The repository has two source files:
* `correlation_module.py` — the Group Resolver (`get_fields_for_group`) and
  the Correlation Engine (`calculate_correlation_matrix`);
* `app.py` — the per-sector / per-group orchestration loop
  (`get_correlation_api`).

We shallowly embed both.  Tabular data is modelled with exact rationals in
place of floats (`ℚ` for data cells, `ℝ` for correlation values, since a
Pearson coefficient involves a square root).  A pandas `NaN` cell of the raw
correlation matrix is modelled by the constructor `PCell.nan`; the
`replace(np.nan, None)` serialisation step maps it to `Option.none`.
-/

namespace ClusteringCompany

/-- A data frame slice: named columns and rows of optional numeric cells
(`none` models a missing value / NaN in the input data). -/
structure DataFrame where
  cols : List String
  rows : List (List (Option ℚ))

/-- Cell lookup by column name, mirroring `df[field]` row access:
`none` when the column is absent or the stored value is missing. -/
def getCell (cols : List String) (row : List (Option ℚ)) (f : String) : Option ℚ :=
  match cols, row with
  | [], _ => none
  | _ :: _, [] => none
  | c :: cs, v :: vs => if c = f then v else getCell cs vs f

/-- `df[fields]`: column projection, one cell per requested field. -/
def selectCols (df : DataFrame) (fields : List String) : List (List (Option ℚ)) :=
  df.rows.map (fun r => fields.map (getCell df.cols r))

/-- `some` of the extracted values when every cell is present, else `none`. -/
def allSome : List (Option ℚ) → Option (List ℚ)
  | [] => some []
  | none :: _ => none
  | some a :: l => (allSome l).map (fun t => a :: t)

/-- `.dropna()`: keep exactly the complete-case rows. -/
def completeRows (rows : List (List (Option ℚ))) : List (List ℚ) :=
  rows.filterMap allSome

/-- Column `j` of a complete-case table (`x[field_j]`). -/
def colVals (x : List (List ℚ)) (j : ℕ) : List ℚ :=
  x.map (fun r => r.getD j 0)

/-- `Series.quantile(q)` with the default linear interpolation: sort the
values, take position `h = q * (n - 1)`, and interpolate between the
neighbouring order statistics. -/
def quantileLinear (q : ℚ) (l : List ℚ) : ℚ :=
  let s := l.insertionSort (· ≤ ·)
  let h : ℚ := q * ((s.length : ℚ) - 1)
  let k : ℕ := (⌊h⌋).toNat
  let lo := s.getD k 0
  let hi := s.getD (k + 1) lo
  lo + (h - (k : ℚ)) * (hi - lo)

/-- Lower Tukey fence of column `j`: `Q1 - 1.5 * IQR`. -/
def lowFence (x : List (List ℚ)) (j : ℕ) : ℚ :=
  let q1 := quantileLinear (1/4) (colVals x j)
  let q3 := quantileLinear (3/4) (colVals x j)
  q1 - 3/2 * (q3 - q1)

/-- Upper Tukey fence of column `j`: `Q3 + 1.5 * IQR`. -/
def highFence (x : List (List ℚ)) (j : ℕ) : ℚ :=
  let q1 := quantileLinear (1/4) (colVals x j)
  let q3 := quantileLinear (3/4) (colVals x j)
  q3 + 3/2 * (q3 - q1)

/-- `~((x < low) | (x > high)).any(axis=1)`: a row is kept unless some
selected field strictly violates its fence. -/
def keepRow (m : ℕ) (low high : ℕ → ℚ) (r : List ℚ) : Bool :=
  !((List.range m).any (fun j =>
      decide (r.getD j 0 < low j) || decide (high j < r.getD j 0)))

/-- Outlier filtering against a fixed pair of fence functions. -/
def tukeyCleanWith (m : ℕ) (low high : ℕ → ℚ) (x : List (List ℚ)) : List (List ℚ) :=
  x.filter (keepRow m low high)

/-- The outlier-removal step of `calculate_correlation_matrix`: fences are
computed once from `x` itself (the pre-removal complete-case rows). -/
def tukeyClean (m : ℕ) (x : List (List ℚ)) : List (List ℚ) :=
  tukeyCleanWith m (lowFence x) (highFence x) x

/-- Mean of a list of rationals (`sum / len`). -/
def mean (l : List ℚ) : ℚ := l.sum / (l.length : ℚ)

/-- Centered cross-product sum `Σ (xᵢ - x̄)(yᵢ - ȳ)`, the shared numerator /
denominator building block of pandas' Pearson computation. -/
def sxy (xs ys : List ℚ) : ℚ :=
  ((xs.zip ys).map (fun p => (p.1 - mean xs) * (p.2 - mean ys))).sum

/-- A raw correlation-matrix cell before serialisation: either pandas `NaN`
or a numeric value. -/
inductive PCell where
  | nan : PCell
  | val : ℝ → PCell

/-- One cell of `x_cleaned.corr()`: `NaN` when the divisor
`sqrt(Σ(x-x̄)² * Σ(y-ȳ)²)` is zero, else the Pearson coefficient. -/
noncomputable def corrCell (xs ys : List ℚ) : PCell :=
  if sxy xs xs = 0 ∨ sxy ys ys = 0 then PCell.nan
  else PCell.val (((sxy xs ys : ℚ) : ℝ) /
    Real.sqrt (((sxy xs xs : ℚ) : ℝ) * ((sxy ys ys : ℚ) : ℝ)))

/-- The raw `m × m` correlation matrix of the cleaned rows. -/
noncomputable def rawCorr (xc : List (List ℚ)) (m : ℕ) : List (List PCell) :=
  (List.range m).map (fun i =>
    (List.range m).map (fun j => corrCell (colVals xc i) (colVals xc j)))

/-- `replace(np.nan, None)` on one cell. -/
def cellToOpt : PCell → Option ℝ
  | PCell.nan => none
  | PCell.val r => some r

/-- The serialised matrix: `corr_matrix.replace(np.nan, None).values.tolist()`. -/
noncomputable def corrMatrixList (xc : List (List ℚ)) (m : ℕ) : List (List (Option ℝ)) :=
  (rawCorr xc m).map (List.map cellToOpt)

/-- The value returned for one (sector, group) pair:
`{ "matrix": ..., "headers": ... }`. -/
structure CorrResult where
  matrix : List (List (Option ℝ))
  headers : List String

/-- `calculate_correlation_matrix(df, fields)` of `correlation_module.py`:
complete-case filtering, the two `< 2` gates, Tukey-fence outlier removal
with fences from the pre-removal rows, Pearson correlation, and NaN → None
serialisation.  (`x_cleaned` keeps all selected columns, so its column count
is `fields.length` at the second gate, exactly as in the source.) -/
noncomputable def calculate_correlation_matrix (df : DataFrame) (fields : List String) :
    Option CorrResult :=
  let x := completeRows (selectCols df fields)
  if x.length < 2 ∨ fields.length < 2 then none
  else
    let xc := tukeyClean fields.length x
    if xc = [] ∨ fields.length < 2 then none
    else some ⟨corrMatrixList xc fields.length, fields⟩

/-- `Series.unique()`: first occurrence of each value, in encounter order.
`seen` accumulates the values already emitted. -/
def pdUniqueAux [DecidableEq α] (seen : List α) : List α → List α
  | [] => []
  | a :: l => if a ∈ seen then pdUniqueAux seen l else a :: pdUniqueAux (a :: seen) l

/-- `Series.unique()` (pandas keeps the first occurrence of each value). -/
def pdUnique [DecidableEq α] (l : List α) : List α := pdUniqueAux [] l

/-- The static attribute description table: one `(group, field)` pair per
row of `field_description.xlsx`. -/
abbrev AttrTable := List (String × String)

/-- `get_fields_for_group` of `correlation_module.py`: the `field` values of
the rows whose group column equals `group_name`, deduplicated. -/
def get_fields_for_group (attr : AttrTable) (group_name : String) : List String :=
  pdUnique ((attr.filter (fun p => p.1 == group_name)).map Prod.snd)

/-- The uploaded CSV after validation: indicator columns plus, per row, the
`sector_unique_id` value and the indicator cells. -/
structure InputTable where
  cols : List String
  rows : List (String × List (Option ℚ))

/-- One group of `input_df.groupby('sector_unique_id')`: the rows whose
sector key equals `s`. -/
def sectorSlice (input : InputTable) (s : String) : DataFrame :=
  ⟨input.cols, (input.rows.filter (fun p => p.1 == s)).map Prod.snd⟩

/-- The inner loop body of `get_correlation_api`: for each indicator group
(in first-occurrence order of the attribute table), resolve its fields,
keep those present in the data, skip the group when fewer than 2 remain or
the engine returns `None`, else record `(group, result)`. -/
noncomputable def groupMatricesFor (attr : AttrTable) (df : DataFrame) :
    List (String × CorrResult) :=
  (pdUnique (attr.map Prod.fst)).filterMap (fun g =>
    let fields := get_fields_for_group attr g
    let existing := fields.filter (fun f => decide (f ∈ df.cols))
    if existing.length < 2 then none
    else (calculate_correlation_matrix df existing).map (fun r => (g, r)))

/-- One entry of the response list. -/
structure SectorEntry where
  sector : String
  group_correlation_matrices : List (String × CorrResult)

/-- `get_correlation_api` of `app.py` after input validation: iterate the
groupby keys (pandas sorts them ascending), and append an entry only when
`group_matrices` is non-empty. -/
noncomputable def get_correlation_api (attr : AttrTable) (input : InputTable) :
    List SectorEntry :=
  ((pdUnique (input.rows.map Prod.fst)).insertionSort (· ≤ ·)).filterMap (fun s =>
    let gm := groupMatricesFor attr (sectorSlice input s)
    if gm.isEmpty then none else some ⟨s, gm⟩)

/-! ### Helper lemmas -/

/-- `Int.toNat` of a numeral, stated so that `simp` can evaluate the index
produced by the floor inside `quantileLinear`. -/
theorem int_toNat_lit (n : ℕ) : (Int.toNat (no_index (OfNat.ofNat n))) = OfNat.ofNat n := rfl

theorem mem_pdUniqueAux [DecidableEq α] (seen l : List α) (a : α) :
    a ∈ pdUniqueAux seen l ↔ a ∈ l ∧ a ∉ seen := by
  induction l generalizing seen with
  | nil => simp [pdUniqueAux]
  | cons b l ih =>
    by_cases hb : b ∈ seen
    · rw [pdUniqueAux, if_pos hb, ih]
      simp only [List.mem_cons]
      constructor
      · exact fun h => ⟨Or.inr h.1, h.2⟩
      · rintro ⟨hab | hal, hs⟩
        · exact absurd (hab ▸ hb) hs
        · exact ⟨hal, hs⟩
    · rw [pdUniqueAux, if_neg hb]
      simp only [List.mem_cons, ih]
      by_cases hab : a = b
      · subst hab; tauto
      · tauto

theorem nodup_pdUniqueAux [DecidableEq α] (seen l : List α) :
    (pdUniqueAux seen l).Nodup := by
  induction l generalizing seen with
  | nil => simp [pdUniqueAux]
  | cons b l ih =>
    by_cases hb : b ∈ seen
    · rw [pdUniqueAux, if_pos hb]; exact ih seen
    · rw [pdUniqueAux, if_neg hb]
      refine List.nodup_cons.mpr ⟨?_, ih (b :: seen)⟩
      rw [mem_pdUniqueAux]
      simp

theorem mem_pdUnique [DecidableEq α] (l : List α) (a : α) :
    a ∈ pdUnique l ↔ a ∈ l := by
  rw [pdUnique, mem_pdUniqueAux]
  simp

/-- A row passes the outlier filter iff every selected field's value lies
(inclusively) inside its fences. -/
theorem keepRow_iff (m : ℕ) (low high : ℕ → ℚ) (r : List ℚ) :
    keepRow m low high r = true ↔
      ∀ j < m, low j ≤ r.getD j 0 ∧ r.getD j 0 ≤ high j := by
  rw [keepRow, Bool.not_eq_true', List.any_eq_false]
  constructor
  · intro h j hj
    have := h j (List.mem_range.mpr hj)
    simp only [Bool.or_eq_true, decide_eq_true_eq, not_or, not_lt] at this
    exact ⟨this.1, this.2⟩
  · intro h j hj
    have := h j (List.mem_range.mp hj)
    simp only [Bool.or_eq_true, decide_eq_true_eq, not_or, not_lt]
    exact ⟨this.1, this.2⟩

/-! ### C8: the Group Resolver -/

/-- C8: `get_fields_for_group` returns the fields mapped to the group with
duplicates removed (it is a pure function, so it has no side effects), and
an absent group name yields the empty list rather than an error. -/
theorem fields_for_group_spec (attr : AttrTable) (g : String) :
    (get_fields_for_group attr g).Nodup ∧
    (∀ f, f ∈ get_fields_for_group attr g ↔ (g, f) ∈ attr) ∧
    (g ∉ attr.map Prod.fst → get_fields_for_group attr g = []) := by
  refine ⟨nodup_pdUniqueAux _ _, fun f => ?_, fun hg => ?_⟩
  · rw [get_fields_for_group, pdUnique, mem_pdUniqueAux]
    simp only [List.not_mem_nil, not_false_iff, and_true, List.mem_map,
      List.mem_filter, beq_iff_eq]
    constructor
    · rintro ⟨p, ⟨hp, h1⟩, h2⟩
      have hpgf : p = (g, f) := by
        cases p
        simp only [Prod.mk.injEq]
        exact ⟨h1, h2⟩
      rwa [hpgf] at hp
    · intro h
      exact ⟨(g, f), ⟨h, rfl⟩, rfl⟩
  · rw [get_fields_for_group]
    have hnil : attr.filter (fun p => p.1 == g) = [] := by
      rw [List.filter_eq_nil_iff]
      intro p hp
      simp only [beq_iff_eq]
      intro hpg
      exact hg (List.mem_map.mpr ⟨p, hp, hpg⟩)
    rw [hnil]
    rfl

/-- Witness for C8 at a concrete table: the group `"H"` is absent from the
table, so the resolver yields the empty list. -/
theorem fields_for_group_spec_witness :
    get_fields_for_group [("G", "A")] "H" = [] :=
  (fields_for_group_spec [("G", "A")] "H").2.2 (by decide)

/-! ### C2: the outlier-removal step -/

/-- C2: in the outlier-removal step of `calculate_correlation_matrix`, the
fences `Q1 - 1.5 IQR` and `Q3 + 1.5 IQR` are computed once per field from
the pre-removal complete-case rows (the statement's fences depend only on
that set), and a row survives iff no selected field's value lies strictly
outside its fence — equivalently, it is removed iff some field's value is
strictly outside. -/
theorem outlier_removal_spec (df : DataFrame) (fields : List String) (r : List ℚ)
    (hr : r ∈ completeRows (selectCols df fields)) :
    r ∈ tukeyClean fields.length (completeRows (selectCols df fields)) ↔
      ∀ j < fields.length,
        lowFence (completeRows (selectCols df fields)) j ≤ r.getD j 0 ∧
        r.getD j 0 ≤ highFence (completeRows (selectCols df fields)) j := by
  rw [tukeyClean, tukeyCleanWith, List.mem_filter, keepRow_iff]
  simp [hr]

/-- The spec's own scenario: sector data `A = [1,2,3,4,100]`,
`B = [2,4,6,8,200]`, one row per pair. -/
def specDF : DataFrame :=
  ⟨["A", "B"],
   [[some 1, some 2], [some 2, some 4], [some 3, some 6],
    [some 4, some 8], [some 100, some 200]]⟩

/-- Witness for C2: on the spec's scenario the row `[1, 2]` lies inside
every fence, so it survives outlier removal. -/
theorem outlier_removal_spec_witness :
    [(1 : ℚ), 2] ∈ tukeyClean ["A", "B"].length (completeRows (selectCols specDF ["A", "B"])) := by
  have hmem : [(1 : ℚ), 2] ∈ completeRows (selectCols specDF ["A", "B"]) := by
    norm_num [completeRows, selectCols, specDF, getCell, allSome, List.filterMap_cons]
  refine (outlier_removal_spec specDF ["A", "B"] [1, 2] hmem).mpr ?_
  have hx : completeRows (selectCols specDF ["A", "B"]) =
      [[1, 2], [2, 4], [3, 6], [4, 8], [100, 200]] := by
    norm_num [completeRows, selectCols, specDF, getCell, allSome, List.filterMap_cons]
  rw [hx]
  intro j hj
  have hj2 : j < 2 := by simpa using hj
  clear hj
  interval_cases j
  · constructor <;>
      norm_num [lowFence, highFence, quantileLinear, colVals,
        List.insertionSort, List.orderedInsert, int_toNat_lit]
  · constructor <;>
      norm_num [lowFence, highFence, quantileLinear, colVals,
        List.insertionSort, List.orderedInsert, int_toNat_lit]

/-! ### C5: idempotence of the outlier filter -/

/-- C5 counterexample: re-running outlier removal with RECOMPUTED fences on
its own output removes further rows.  Both columns are `[0,0,0,0,4,100]`:
the first pass has fences `[-4.5, 7.5]` and drops only the `100` row, after
which the recomputed IQR is `0` and the second pass drops the `4` row. -/
theorem tukeyClean_not_idempotent :
    tukeyClean 2 (tukeyClean 2
        [[0, 0], [0, 0], [0, 0], [0, 0], [4, 4], [100, 100]]) ≠
      tukeyClean 2 [[0, 0], [0, 0], [0, 0], [0, 0], [4, 4], [100, 100]] := by
  have e1 : tukeyClean 2 [[0, 0], [0, 0], [0, 0], [0, 0], [4, 4], [100, 100]] =
      [[0, 0], [0, 0], [0, 0], [0, 0], [4, 4]] := by
    have h0 : lowFence [[0, 0], [0, 0], [0, 0], [0, 0], [4, 4], [100, 100]] 0 = -9/2 := by
      norm_num [lowFence, quantileLinear, colVals, List.insertionSort,
        List.orderedInsert, int_toNat_lit]
    have h1 : lowFence [[0, 0], [0, 0], [0, 0], [0, 0], [4, 4], [100, 100]] 1 = -9/2 := by
      norm_num [lowFence, quantileLinear, colVals, List.insertionSort,
        List.orderedInsert, int_toNat_lit]
    have h2 : highFence [[0, 0], [0, 0], [0, 0], [0, 0], [4, 4], [100, 100]] 0 = 15/2 := by
      norm_num [highFence, quantileLinear, colVals, List.insertionSort,
        List.orderedInsert, int_toNat_lit]
    have h3 : highFence [[0, 0], [0, 0], [0, 0], [0, 0], [4, 4], [100, 100]] 1 = 15/2 := by
      norm_num [highFence, quantileLinear, colVals, List.insertionSort,
        List.orderedInsert, int_toNat_lit]
    norm_num [tukeyClean, tukeyCleanWith, keepRow, h0, h1, h2, h3, List.range_succ,
      List.filter_cons, List.any_cons]
  have e2 : tukeyClean 2 [[0, 0], [0, 0], [0, 0], [0, 0], [4, 4]] =
      [[0, 0], [0, 0], [0, 0], [0, 0]] := by
    have h0 : lowFence [[0, 0], [0, 0], [0, 0], [0, 0], [4, 4]] 0 = 0 := by
      norm_num [lowFence, quantileLinear, colVals, List.insertionSort,
        List.orderedInsert, int_toNat_lit]
    have h1 : lowFence [[0, 0], [0, 0], [0, 0], [0, 0], [4, 4]] 1 = 0 := by
      norm_num [lowFence, quantileLinear, colVals, List.insertionSort,
        List.orderedInsert, int_toNat_lit]
    have h2 : highFence [[0, 0], [0, 0], [0, 0], [0, 0], [4, 4]] 0 = 0 := by
      norm_num [highFence, quantileLinear, colVals, List.insertionSort,
        List.orderedInsert, int_toNat_lit]
    have h3 : highFence [[0, 0], [0, 0], [0, 0], [0, 0], [4, 4]] 1 = 0 := by
      norm_num [highFence, quantileLinear, colVals, List.insertionSort,
        List.orderedInsert, int_toNat_lit]
    norm_num [tukeyClean, tukeyCleanWith, keepRow, h0, h1, h2, h3, List.range_succ,
      List.filter_cons, List.any_cons]
  rw [e1, e2]
  simp

/-- C5 amended: with the fences held fixed (they are computed once, from the
pre-removal rows, exactly as the source does), re-running the outlier filter
on its own output removes zero additional rows; idempotence fails only if
the fences are recomputed from the cleaned set. -/
theorem tukeyCleanWith_idempotent (m : ℕ) (low high : ℕ → ℚ) (x : List (List ℚ)) :
    tukeyCleanWith m low high (tukeyCleanWith m low high x) =
      tukeyCleanWith m low high x := by
  simp only [tukeyCleanWith, List.filter_filter, Bool.and_self]

/-! ### C3: the post-cleaning gate -/

/-- A sector slice whose two selected columns are constant. -/
def constDF : DataFrame :=
  ⟨["A", "B"], [[some 1, some 1], [some 1, some 1], [some 1, some 1]]⟩

/-- Evaluation of the engine on `constDF`: both columns constant, all cells
collapse to the marker, yet a result is returned. -/
theorem calc_constDF :
    calculate_correlation_matrix constDF ["A", "B"] =
      some ⟨[[none, none], [none, none]], ["A", "B"]⟩ := by
  have hx : completeRows (selectCols constDF ["A", "B"]) = [[1, 1], [1, 1], [1, 1]] := by
    norm_num [completeRows, selectCols, constDF, getCell, allSome, List.filterMap_cons]
  have h0 : lowFence [[(1 : ℚ), 1], [1, 1], [1, 1]] 0 = 1 := by
    norm_num [lowFence, quantileLinear, colVals, List.insertionSort, List.orderedInsert,
      int_toNat_lit]
  have h1 : lowFence [[(1 : ℚ), 1], [1, 1], [1, 1]] 1 = 1 := by
    norm_num [lowFence, quantileLinear, colVals, List.insertionSort, List.orderedInsert,
      int_toNat_lit]
  have h2 : highFence [[(1 : ℚ), 1], [1, 1], [1, 1]] 0 = 1 := by
    norm_num [highFence, quantileLinear, colVals, List.insertionSort, List.orderedInsert,
      int_toNat_lit]
  have h3 : highFence [[(1 : ℚ), 1], [1, 1], [1, 1]] 1 = 1 := by
    norm_num [highFence, quantileLinear, colVals, List.insertionSort, List.orderedInsert,
      int_toNat_lit]
  have hclean : tukeyClean 2 [[(1 : ℚ), 1], [1, 1], [1, 1]] = [[1, 1], [1, 1], [1, 1]] := by
    norm_num [tukeyClean, tukeyCleanWith, keepRow, h0, h1, h2, h3, List.range_succ,
      List.filter_cons, List.any_cons]
  have hsxy : sxy [(1 : ℚ), 1, 1] [(1 : ℚ), 1, 1] = 0 := by
    norm_num [sxy, mean]
  have hc0 : colVals [[(1 : ℚ), 1], [1, 1], [1, 1]] 0 = [1, 1, 1] := rfl
  have hc1 : colVals [[(1 : ℚ), 1], [1, 1], [1, 1]] 1 = [1, 1, 1] := rfl
  simp only [calculate_correlation_matrix, hx, List.length_cons, List.length_nil]
  norm_num [hclean, corrMatrixList, rawCorr, List.range_succ, hc0, hc1, corrCell, hsxy,
    cellToOpt]
  intro hcontra
  exact absurd hcontra (List.cons_ne_nil _ _)

/-- C3 counterexample: on `constDF` both selected columns are constant over
the cleaned rows, so the claim's "usable field after dropping all-constant
columns" count is 0 and the claim predicts absent — but the code never
drops columns at the post-cleaning gate (`len(x_cleaned.columns)` is the
unchanged selected-column count), so the engine returns a matrix (every
cell being the "no value" marker). -/
theorem engine_returns_result_for_constant_columns :
    calculate_correlation_matrix constDF ["A", "B"] =
      some ⟨[[none, none], [none, none]], ["A", "B"]⟩ :=
  calc_constDF

/-- C3 amended: once the pre-cleaning gate has passed (at least 2 complete
rows and at least 2 selected fields), the engine returns absent exactly when
outlier removal leaves no rows.  The second gate's column count is the
unchanged selected-field count — no all-missing or all-constant column is
dropped — so with at least 2 selected fields that count never fails. -/
theorem engine_absent_iff_cleaned_empty (df : DataFrame) (fields : List String)
    (hx : 2 ≤ (completeRows (selectCols df fields)).length)
    (hf : 2 ≤ fields.length) :
    calculate_correlation_matrix df fields = none ↔
      tukeyClean fields.length (completeRows (selectCols df fields)) = [] := by
  have h1 : ¬((completeRows (selectCols df fields)).length < 2 ∨ fields.length < 2) := by
    omega
  simp only [calculate_correlation_matrix]
  rw [if_neg h1]
  by_cases h2 : tukeyClean fields.length (completeRows (selectCols df fields)) = []
  · simp [h2]
  · have h3 : ¬(tukeyClean fields.length (completeRows (selectCols df fields)) = [] ∨
        fields.length < 2) := by
      push_neg
      exact ⟨h2, by omega⟩
    rw [if_neg h3]
    simp [h2]

/-- A sector slice on which every complete-case row is a Tukey outlier in
some column: each column is a permutation of `[0,0,0,8]` (fences `[-3, 5]`)
and each row holds one `8`. -/
def allOutlierDF : DataFrame :=
  ⟨["A", "B", "C", "D"],
   [[some 0, some 0, some 0, some 8],
    [some 0, some 0, some 8, some 0],
    [some 0, some 8, some 0, some 0],
    [some 8, some 0, some 0, some 0]]⟩

/-- Witness for C3 (amended): on `allOutlierDF` the cleaning empties the
table and the engine returns absent. -/
theorem engine_absent_iff_cleaned_empty_witness :
    calculate_correlation_matrix allOutlierDF ["A", "B", "C", "D"] = none := by
  have hx : completeRows (selectCols allOutlierDF ["A", "B", "C", "D"]) =
      [[0, 0, 0, 8], [0, 0, 8, 0], [0, 8, 0, 0], [8, 0, 0, 0]] := by
    norm_num [completeRows, selectCols, allOutlierDF, getCell, allSome, List.filterMap_cons]
  have key : tukeyClean (["A", "B", "C", "D"] : List String).length
      (completeRows (selectCols allOutlierDF ["A", "B", "C", "D"])) = [] := by
    rw [hx]
    have e0 : lowFence [[(0 : ℚ), 0, 0, 8], [0, 0, 8, 0], [0, 8, 0, 0], [8, 0, 0, 0]] 0
        = -3 := by
      norm_num [lowFence, quantileLinear, colVals, List.insertionSort, List.orderedInsert,
        int_toNat_lit]
    have e1 : lowFence [[(0 : ℚ), 0, 0, 8], [0, 0, 8, 0], [0, 8, 0, 0], [8, 0, 0, 0]] 1
        = -3 := by
      norm_num [lowFence, quantileLinear, colVals, List.insertionSort, List.orderedInsert,
        int_toNat_lit]
    have e2 : lowFence [[(0 : ℚ), 0, 0, 8], [0, 0, 8, 0], [0, 8, 0, 0], [8, 0, 0, 0]] 2
        = -3 := by
      norm_num [lowFence, quantileLinear, colVals, List.insertionSort, List.orderedInsert,
        int_toNat_lit]
    have e3 : lowFence [[(0 : ℚ), 0, 0, 8], [0, 0, 8, 0], [0, 8, 0, 0], [8, 0, 0, 0]] 3
        = -3 := by
      norm_num [lowFence, quantileLinear, colVals, List.insertionSort, List.orderedInsert,
        int_toNat_lit]
    have f0 : highFence [[(0 : ℚ), 0, 0, 8], [0, 0, 8, 0], [0, 8, 0, 0], [8, 0, 0, 0]] 0
        = 5 := by
      norm_num [highFence, quantileLinear, colVals, List.insertionSort, List.orderedInsert,
        int_toNat_lit]
    have f1 : highFence [[(0 : ℚ), 0, 0, 8], [0, 0, 8, 0], [0, 8, 0, 0], [8, 0, 0, 0]] 1
        = 5 := by
      norm_num [highFence, quantileLinear, colVals, List.insertionSort, List.orderedInsert,
        int_toNat_lit]
    have f2 : highFence [[(0 : ℚ), 0, 0, 8], [0, 0, 8, 0], [0, 8, 0, 0], [8, 0, 0, 0]] 2
        = 5 := by
      norm_num [highFence, quantileLinear, colVals, List.insertionSort, List.orderedInsert,
        int_toNat_lit]
    have f3 : highFence [[(0 : ℚ), 0, 0, 8], [0, 0, 8, 0], [0, 8, 0, 0], [8, 0, 0, 0]] 3
        = 5 := by
      norm_num [highFence, quantileLinear, colVals, List.insertionSort, List.orderedInsert,
        int_toNat_lit]
    norm_num [tukeyClean, tukeyCleanWith, keepRow, e0, e1, e2, e3, f0, f1, f2, f3,
      List.range_succ, List.filter_cons, List.any_cons]
  refine (engine_absent_iff_cleaned_empty allOutlierDF ["A", "B", "C", "D"] ?_ ?_).mpr key
  · rw [hx]
    norm_num
  · norm_num

/-! ### C10: two complete rows always survive cleaning -/

theorem insertionSort_pair_comm (a b : ℚ) :
    ([a, b] : List ℚ).insertionSort (· ≤ ·) = ([b, a] : List ℚ).insertionSort (· ≤ ·) := by
  rcases le_total a b with h | h
  · by_cases h' : b ≤ a
    · have hab : a = b := le_antisymm h h'
      subst hab
      rfl
    · simp [List.insertionSort, List.orderedInsert, h, h']
  · by_cases h' : a ≤ b
    · have hab : a = b := le_antisymm h' h
      subst hab
      rfl
    · simp [List.insertionSort, List.orderedInsert, h, h']

theorem quantileLinear_pair_swap (q : ℚ) (a b : ℚ) :
    quantileLinear q [a, b] = quantileLinear q [b, a] := by
  simp only [quantileLinear, insertionSort_pair_comm a b]

/-- Linear-interpolation quantile of a sorted pair: position `q` of the way
from `a` to `b`. -/
theorem quantileLinear_pair (q : ℚ) (hq : ⌊q⌋ = 0) (a b : ℚ) (hab : a ≤ b) :
    quantileLinear q [a, b] = a + q * (b - a) := by
  have hs : ([a, b] : List ℚ).insertionSort (· ≤ ·) = [a, b] := by
    simp [List.insertionSort, List.orderedInsert, hab]
  simp only [quantileLinear, hs, List.length_cons, List.length_nil]
  norm_num [hq]

/-- Both members of a pair lie weakly inside the pair's Tukey fences. -/
theorem pair_within_fences (a b : ℚ) :
    (quantileLinear (1/4) [a, b] -
        3/2 * (quantileLinear (3/4) [a, b] - quantileLinear (1/4) [a, b]) ≤ a ∧
      a ≤ quantileLinear (3/4) [a, b] +
        3/2 * (quantileLinear (3/4) [a, b] - quantileLinear (1/4) [a, b])) ∧
    (quantileLinear (1/4) [a, b] -
        3/2 * (quantileLinear (3/4) [a, b] - quantileLinear (1/4) [a, b]) ≤ b ∧
      b ≤ quantileLinear (3/4) [a, b] +
        3/2 * (quantileLinear (3/4) [a, b] - quantileLinear (1/4) [a, b])) := by
  rcases le_total a b with h | h
  · rw [quantileLinear_pair (1/4) (by norm_num) a b h,
      quantileLinear_pair (3/4) (by norm_num) a b h]
    exact ⟨⟨by linarith, by linarith⟩, ⟨by linarith, by linarith⟩⟩
  · rw [quantileLinear_pair_swap (1/4) a b, quantileLinear_pair_swap (3/4) a b,
      quantileLinear_pair (1/4) (by norm_num) b a h,
      quantileLinear_pair (3/4) (by norm_num) b a h]
    exact ⟨⟨by linarith, by linarith⟩, ⟨by linarith, by linarith⟩⟩

/-- C10: when exactly 2 complete-case rows reach the outlier-removal step
(and at least 2 fields are selected), the fences computed from two values
always contain both, so no row is removed and the engine returns a result. -/
theorem two_complete_rows_give_result (df : DataFrame) (fields : List String)
    (hx : (completeRows (selectCols df fields)).length = 2)
    (hf : 2 ≤ fields.length) :
    (calculate_correlation_matrix df fields).isSome = true := by
  obtain ⟨r1, r2, hx2⟩ := List.length_eq_two.mp hx
  have hclean : tukeyClean fields.length (completeRows (selectCols df fields)) =
      completeRows (selectCols df fields) := by
    rw [hx2, tukeyClean, tukeyCleanWith]
    apply List.filter_eq_self.mpr
    intro r hr
    rw [keepRow_iff]
    intro j hj
    have hl : lowFence [r1, r2] j =
        quantileLinear (1/4) [r1.getD j 0, r2.getD j 0] -
          3/2 * (quantileLinear (3/4) [r1.getD j 0, r2.getD j 0] -
            quantileLinear (1/4) [r1.getD j 0, r2.getD j 0]) := rfl
    have hh : highFence [r1, r2] j =
        quantileLinear (3/4) [r1.getD j 0, r2.getD j 0] +
          3/2 * (quantileLinear (3/4) [r1.getD j 0, r2.getD j 0] -
            quantileLinear (1/4) [r1.getD j 0, r2.getD j 0]) := rfl
    rw [hl, hh]
    rcases List.mem_cons.mp hr with heq | hr2
    · subst heq
      exact (pair_within_fences _ _).1
    · rcases List.mem_cons.mp hr2 with heq | h3
      · subst heq
        exact (pair_within_fences _ _).2
      · exact absurd h3 (List.not_mem_nil r)
  have h1 : ¬((completeRows (selectCols df fields)).length < 2 ∨ fields.length < 2) := by
    omega
  have h2 : ¬(tukeyClean fields.length (completeRows (selectCols df fields)) = [] ∨
      fields.length < 2) := by
    push_neg
    refine ⟨?_, by omega⟩
    rw [hclean, hx2]
    exact List.cons_ne_nil _ _
  simp only [calculate_correlation_matrix]
  rw [if_neg h1, if_neg h2]
  rfl

/-- A slice with exactly two complete rows. -/
def twoRowDF : DataFrame := ⟨["A", "B"], [[some 0, some 1], [some 1, some 0]]⟩

/-- Witness for C10: the engine returns a result on a two-row slice. -/
theorem two_complete_rows_give_result_witness :
    (calculate_correlation_matrix twoRowDF ["A", "B"]).isSome = true :=
  two_complete_rows_give_result twoRowDF ["A", "B"]
    (by norm_num [completeRows, selectCols, twoRowDF, getCell, allSome, List.filterMap_cons])
    (by norm_num)

/-! ### C9: a single cleaned row yields a full all-marker matrix -/

/-- Over a single observation every centered sum is zero. -/
theorem sxy_singleton (a b : ℚ) : sxy [a] [b] = 0 := by
  norm_num [sxy, mean]

/-- C9: when outlier removal leaves exactly one row (after the pre-gates
passed), the engine does not return absent: it returns a full
`fields.length × fields.length` matrix of "no value" markers, since every
denominator sum is zero over one observation. -/
theorem single_cleaned_row_all_none (df : DataFrame) (fields : List String) (r : List ℚ)
    (hx : 2 ≤ (completeRows (selectCols df fields)).length)
    (hf : 2 ≤ fields.length)
    (hc : tukeyClean fields.length (completeRows (selectCols df fields)) = [r]) :
    calculate_correlation_matrix df fields =
      some ⟨(List.range fields.length).map
          (fun _ => (List.range fields.length).map (fun _ => (none : Option ℝ))),
        fields⟩ := by
  have h1 : ¬((completeRows (selectCols df fields)).length < 2 ∨ fields.length < 2) := by
    omega
  have h2 : ¬(tukeyClean fields.length (completeRows (selectCols df fields)) = [] ∨
      fields.length < 2) := by
    push_neg
    refine ⟨?_, by omega⟩
    rw [hc]
    exact List.cons_ne_nil _ _
  simp only [calculate_correlation_matrix]
  rw [if_neg h1, if_neg h2, hc]
  refine congrArg some ?_
  have hmat : corrMatrixList [r] fields.length =
      (List.range fields.length).map
        (fun _ => (List.range fields.length).map (fun _ => (none : Option ℝ))) := by
    rw [corrMatrixList, rawCorr, List.map_map]
    apply List.map_congr_left
    intro i hi
    simp only [Function.comp_apply, List.map_map]
    apply List.map_congr_left
    intro j hj
    have hnan : corrCell (colVals [r] i) (colVals [r] j) = PCell.nan := by
      rw [corrCell, if_pos]
      left
      show sxy [r.getD i 0] [r.getD i 0] = 0
      exact sxy_singleton _ _
    simp [Function.comp_apply, hnan, cellToOpt]
  rw [hmat]

/-- Four rows of which exactly one survives cleaning: each column is a
permutation of `[0,0,0,8]` (fences `[-3, 5]`), and rows 2–4 each hold one
`8` while row 1 is all zeros. -/
def oneSurvivorDF : DataFrame :=
  ⟨["A", "B", "C"],
   [[some 0, some 0, some 0],
    [some 0, some 0, some 8],
    [some 0, some 8, some 0],
    [some 8, some 0, some 0]]⟩

/-- Witness for C9: on `oneSurvivorDF` one row survives and the engine
returns a 3 × 3 matrix of markers. -/
theorem single_cleaned_row_all_none_witness :
    calculate_correlation_matrix oneSurvivorDF ["A", "B", "C"] =
      some ⟨[[none, none, none], [none, none, none], [none, none, none]],
        ["A", "B", "C"]⟩ := by
  have hx : completeRows (selectCols oneSurvivorDF ["A", "B", "C"]) =
      [[0, 0, 0], [0, 0, 8], [0, 8, 0], [8, 0, 0]] := by
    norm_num [completeRows, selectCols, oneSurvivorDF, getCell, allSome, List.filterMap_cons]
  have hc : tukeyClean (["A", "B", "C"] : List String).length
      (completeRows (selectCols oneSurvivorDF ["A", "B", "C"])) = [[0, 0, 0]] := by
    rw [hx]
    have e0 : lowFence [[(0 : ℚ), 0, 0], [0, 0, 8], [0, 8, 0], [8, 0, 0]] 0 = -3 := by
      norm_num [lowFence, quantileLinear, colVals, List.insertionSort, List.orderedInsert,
        int_toNat_lit]
    have e1 : lowFence [[(0 : ℚ), 0, 0], [0, 0, 8], [0, 8, 0], [8, 0, 0]] 1 = -3 := by
      norm_num [lowFence, quantileLinear, colVals, List.insertionSort, List.orderedInsert,
        int_toNat_lit]
    have e2 : lowFence [[(0 : ℚ), 0, 0], [0, 0, 8], [0, 8, 0], [8, 0, 0]] 2 = -3 := by
      norm_num [lowFence, quantileLinear, colVals, List.insertionSort, List.orderedInsert,
        int_toNat_lit]
    have f0 : highFence [[(0 : ℚ), 0, 0], [0, 0, 8], [0, 8, 0], [8, 0, 0]] 0 = 5 := by
      norm_num [highFence, quantileLinear, colVals, List.insertionSort, List.orderedInsert,
        int_toNat_lit]
    have f1 : highFence [[(0 : ℚ), 0, 0], [0, 0, 8], [0, 8, 0], [8, 0, 0]] 1 = 5 := by
      norm_num [highFence, quantileLinear, colVals, List.insertionSort, List.orderedInsert,
        int_toNat_lit]
    have f2 : highFence [[(0 : ℚ), 0, 0], [0, 0, 8], [0, 8, 0], [8, 0, 0]] 2 = 5 := by
      norm_num [highFence, quantileLinear, colVals, List.insertionSort, List.orderedInsert,
        int_toNat_lit]
    norm_num [tukeyClean, tukeyCleanWith, keepRow, e0, e1, e2, f0, f1, f2,
      List.range_succ, List.filter_cons, List.any_cons]
  have h := single_cleaned_row_all_none oneSurvivorDF ["A", "B", "C"] [0, 0, 0]
    (by rw [hx]; norm_num) (by norm_num) hc
  rw [h]
  norm_num [List.range_succ]

/-! ### C6, C7: shape of the returned matrix -/

/-- Inversion: a returned result is exactly the serialised correlation
matrix of the cleaned rows with the selected fields as headers. -/
theorem calc_some_inv (df : DataFrame) (fields : List String) (res : CorrResult)
    (h : calculate_correlation_matrix df fields = some res) :
    res = ⟨corrMatrixList
        (tukeyClean fields.length (completeRows (selectCols df fields))) fields.length,
      fields⟩ := by
  simp only [calculate_correlation_matrix] at h
  by_cases h1 : (completeRows (selectCols df fields)).length < 2 ∨ fields.length < 2
  · rw [if_pos h1] at h
    exact absurd h (by simp)
  · rw [if_neg h1] at h
    by_cases h2 : tukeyClean fields.length (completeRows (selectCols df fields)) = [] ∨
        fields.length < 2
    · rw [if_pos h2] at h
      exact absurd h (by simp)
    · rw [if_neg h2] at h
      exact (Option.some_inj.mp h).symm

theorem getD_map_range {α : Type} (f : ℕ → α) (d : α) {m i : ℕ} (h : i < m) :
    ((List.range m).map f).getD i d = f i := by
  have hlen : i < ((List.range m).map f).length := by simpa using h
  rw [List.getD_eq_getElem _ _ hlen]
  simp

/-- Cell `(i, j)` of the serialised matrix is the serialised Pearson cell of
columns `i` and `j`. -/
theorem corrMatrixList_cell (xc : List (List ℚ)) (m i j : ℕ) (hi : i < m) (hj : j < m) :
    ((corrMatrixList xc m).getD i []).getD j none =
      cellToOpt (corrCell (colVals xc i) (colVals xc j)) := by
  rw [corrMatrixList, rawCorr, List.map_map, getD_map_range _ _ hi]
  simp only [Function.comp_apply]
  rw [List.map_map, getD_map_range _ _ hj]
  rfl

theorem zip_centered_sum_comm (c d : ℚ) : ∀ xs ys : List ℚ,
    ((xs.zip ys).map (fun p => (p.1 - c) * (p.2 - d))).sum =
      ((ys.zip xs).map (fun p => (p.1 - d) * (p.2 - c))).sum
  | [], ys => by cases ys <;> simp
  | x :: xs, [] => by simp
  | x :: xs, y :: ys => by
    simp only [List.zip_cons_cons, List.map_cons, List.sum_cons,
      zip_centered_sum_comm c d xs ys]
    ring

theorem sxy_comm (xs ys : List ℚ) : sxy xs ys = sxy ys xs := by
  rw [sxy, sxy]
  exact zip_centered_sum_comm (mean xs) (mean ys) xs ys

theorem zip_self_centered_sum (c : ℚ) : ∀ xs : List ℚ,
    ((xs.zip xs).map (fun p => (p.1 - c) * (p.2 - c))).sum =
      (xs.map (fun a => (a - c) * (a - c))).sum
  | [] => by simp
  | x :: xs => by
    simp only [List.zip_cons_cons, List.map_cons, List.sum_cons,
      zip_self_centered_sum c xs]

theorem sxy_self_nonneg (xs : List ℚ) : 0 ≤ sxy xs xs := by
  rw [sxy, zip_self_centered_sum]
  apply List.sum_nonneg
  intro a ha
  rcases List.mem_map.mp ha with ⟨b, _, rfl⟩
  exact mul_self_nonneg _

/-- The raw Pearson cell is symmetric in its two columns. -/
theorem corrCell_comm (xs ys : List ℚ) : corrCell xs ys = corrCell ys xs := by
  rw [corrCell, corrCell]
  by_cases h : sxy xs xs = 0 ∨ sxy ys ys = 0
  · rw [if_pos h, if_pos (Or.symm h)]
  · rw [if_neg h, if_neg (fun hc => h (Or.symm hc))]
    rw [sxy_comm ys xs, mul_comm ((sxy ys ys : ℚ) : ℝ) ((sxy xs xs : ℚ) : ℝ)]

/-- The raw diagonal cell: `NaN` at zero variance, else exactly `1`. -/
theorem corrCell_self (xs : List ℚ) :
    corrCell xs xs = if sxy xs xs = 0 then PCell.nan else PCell.val 1 := by
  rw [corrCell]
  by_cases h : sxy xs xs = 0
  · rw [if_pos (Or.inl h), if_pos h]
  · rw [if_neg (fun hc => hc.elim h h), if_neg h]
    have hpos : (0 : ℝ) < ((sxy xs xs : ℚ) : ℝ) := by
      have h0 : (0 : ℚ) < sxy xs xs := lt_of_le_of_ne (sxy_self_nonneg xs) (Ne.symm h)
      exact_mod_cast h0
    rw [Real.sqrt_mul_self (le_of_lt hpos)]
    rw [div_self (ne_of_gt hpos)]

/-- C6: every matrix the engine returns is symmetric (including marker
cells), and each diagonal entry is exactly `1.0` or the "no value" marker,
the marker occurring precisely when the field's centered sum of squares
over the cleaned rows is zero (zero variance). -/
theorem corr_matrix_symmetric_and_diagonal (df : DataFrame) (fields : List String)
    (res : CorrResult) (h : calculate_correlation_matrix df fields = some res) :
    (∀ i j, i < fields.length → j < fields.length →
      (res.matrix.getD i []).getD j none = (res.matrix.getD j []).getD i none) ∧
    (∀ i, i < fields.length →
      (res.matrix.getD i []).getD i none = some 1 ∨
      (res.matrix.getD i []).getD i none = none) ∧
    (∀ i, i < fields.length →
      ((res.matrix.getD i []).getD i none = none ↔
        sxy (colVals (tukeyClean fields.length (completeRows (selectCols df fields))) i)
          (colVals (tukeyClean fields.length (completeRows (selectCols df fields))) i)
          = 0)) := by
  have hres := calc_some_inv df fields res h
  subst hres
  simp only
  refine ⟨fun i j hi hj => ?_, fun i hi => ?_, fun i hi => ?_⟩
  · rw [corrMatrixList_cell _ _ i j hi hj, corrMatrixList_cell _ _ j i hj hi, corrCell_comm]
  · rw [corrMatrixList_cell _ _ i i hi hi, corrCell_self]
    by_cases hs : sxy
        (colVals (tukeyClean fields.length (completeRows (selectCols df fields))) i)
        (colVals (tukeyClean fields.length (completeRows (selectCols df fields))) i) = 0
    · rw [if_pos hs]
      right
      rfl
    · rw [if_neg hs]
      left
      rfl
  · rw [corrMatrixList_cell _ _ i i hi hi, corrCell_self]
    by_cases hs : sxy
        (colVals (tukeyClean fields.length (completeRows (selectCols df fields))) i)
        (colVals (tukeyClean fields.length (completeRows (selectCols df fields))) i) = 0
    · rw [if_pos hs]
      simp [cellToOpt, hs]
    · rw [if_neg hs]
      simp [cellToOpt, hs]

/-- Witness for C6: on `constDF` the returned diagonal cell `(0,0)` is the
marker (both columns have zero variance). -/
theorem corr_matrix_symmetric_and_diagonal_witness :
    ((⟨[[none, none], [none, none]], ["A", "B"]⟩ : CorrResult).matrix.getD 0 []).getD 0 none
        = some 1 ∨
    ((⟨[[none, none], [none, none]], ["A", "B"]⟩ : CorrResult).matrix.getD 0 []).getD 0 none
        = none :=
  (corr_matrix_symmetric_and_diagonal constDF ["A", "B"]
      ⟨[[none, none], [none, none]], ["A", "B"]⟩ calc_constDF).2.1 0 (by norm_num)

/-- C7: each cell of a returned (serialised) matrix is the explicit marker
`none` exactly when the raw Pearson cell is the pandas `NaN`, and `some v`
exactly when the raw cell is the numeric value `v` — the serialised matrix
never contains a `NaN` cell. -/
theorem serialized_cells_never_nan (df : DataFrame) (fields : List String)
    (res : CorrResult) (h : calculate_correlation_matrix df fields = some res) :
    ∀ i j, i < fields.length → j < fields.length →
      (((res.matrix.getD i []).getD j none = none) ↔
        corrCell
          (colVals (tukeyClean fields.length (completeRows (selectCols df fields))) i)
          (colVals (tukeyClean fields.length (completeRows (selectCols df fields))) j)
          = PCell.nan) ∧
      (∀ v : ℝ, ((res.matrix.getD i []).getD j none = some v) ↔
        corrCell
          (colVals (tukeyClean fields.length (completeRows (selectCols df fields))) i)
          (colVals (tukeyClean fields.length (completeRows (selectCols df fields))) j)
          = PCell.val v) := by
  have hres := calc_some_inv df fields res h
  subst hres
  intro i j hi hj
  simp only
  rw [corrMatrixList_cell _ _ i j hi hj]
  cases hcell : corrCell
      (colVals (tukeyClean fields.length (completeRows (selectCols df fields))) i)
      (colVals (tukeyClean fields.length (completeRows (selectCols df fields))) j) with
  | nan => simp [cellToOpt]
  | val w => simp [cellToOpt]

/-- Witness for C7: on `constDF` the cell `(0, 1)` is the marker and the raw
cell is the `NaN` of pandas. -/
theorem serialized_cells_never_nan_witness :
    (((⟨[[none, none], [none, none]], ["A", "B"]⟩ : CorrResult).matrix.getD 0 []).getD 1 none
        = none) ↔
      corrCell
        (colVals (tukeyClean (["A", "B"] : List String).length
          (completeRows (selectCols constDF ["A", "B"]))) 0)
        (colVals (tukeyClean (["A", "B"] : List String).length
          (completeRows (selectCols constDF ["A", "B"]))) 1)
        = PCell.nan :=
  (serialized_cells_never_nan constDF ["A", "B"]
      ⟨[[none, none], [none, none]], ["A", "B"]⟩ calc_constDF 0 1
      (by norm_num) (by norm_num)).1

/-! ### C4: insufficient fields or rows silently omit the group -/

theorem calc_none_of_few_rows (df : DataFrame) (fields : List String)
    (h : (completeRows (selectCols df fields)).length < 2) :
    calculate_correlation_matrix df fields = none := by
  simp only [calculate_correlation_matrix]
  rw [if_pos (Or.inl h)]

/-- C4: if fewer than 2 of a group's fields occur among the slice's columns,
or fewer than 2 complete-case rows remain, the group is absent from the
slice's output.  The embedding is total, so no error can be raised. -/
theorem insufficient_group_omitted (attr : AttrTable) (input : InputTable) (s g : String)
    (h : ((get_fields_for_group attr g).filter
          (fun f => decide (f ∈ (sectorSlice input s).cols))).length < 2 ∨
        (completeRows (selectCols (sectorSlice input s)
          ((get_fields_for_group attr g).filter
            (fun f => decide (f ∈ (sectorSlice input s).cols))))).length < 2) :
    g ∉ (groupMatricesFor attr (sectorSlice input s)).map Prod.fst := by
  intro hmem
  rw [List.mem_map] at hmem
  obtain ⟨p, hp, hpg⟩ := hmem
  rw [groupMatricesFor, List.mem_filterMap] at hp
  obtain ⟨g', hg', hbody⟩ := hp
  simp only at hbody
  by_cases hlen : ((get_fields_for_group attr g').filter
      (fun f => decide (f ∈ (sectorSlice input s).cols))).length < 2
  · rw [if_pos hlen] at hbody
    exact absurd hbody (by simp)
  · rw [if_neg hlen] at hbody
    obtain ⟨r, hcalc, hpr⟩ := Option.map_eq_some'.mp hbody
    subst hpr
    simp only at hpg
    subst hpg
    rcases h with h | h
    · exact hlen h
    · rw [calc_none_of_few_rows _ _ h] at hcalc
      exact absurd hcalc (by simp)

/-- The attribute description table used by the concrete witnesses: one
group `"G"` with fields `"A"` and `"B"`. -/
def attrGAB : AttrTable := [("G", "A"), ("G", "B")]

/-- An input whose only sector carries just the column `"A"`. -/
def oneColInput : InputTable := ⟨["A"], [("s", [some 1])]⟩

/-- Witness for C4: with a single matching column, group `"G"` is omitted. -/
theorem insufficient_group_omitted_witness :
    "G" ∉ (groupMatricesFor attrGAB (sectorSlice oneColInput "s")).map Prod.fst := by
  refine insufficient_group_omitted attrGAB oneColInput "s" "G" (Or.inl ?_)
  simp [get_fields_for_group, pdUnique, pdUniqueAux, sectorSlice, oneColInput,
    attrGAB, List.filter_cons]

/-! ### C1: which sectors appear in the response -/

theorem api_sectors_eq_filter (attr : AttrTable) (input : InputTable) :
    (get_correlation_api attr input).map SectorEntry.sector =
      ((pdUnique (input.rows.map Prod.fst)).insertionSort (· ≤ ·)).filter
        (fun s => !(groupMatricesFor attr (sectorSlice input s)).isEmpty) := by
  rw [get_correlation_api]
  generalize (pdUnique (input.rows.map Prod.fst)).insertionSort (· ≤ ·) = l
  induction l with
  | nil => rfl
  | cons s l ih =>
    rw [List.filterMap_cons, List.filter_cons]
    by_cases hs : (groupMatricesFor attr (sectorSlice input s)).isEmpty = true
    · simp only [hs, if_pos, Bool.not_true, if_neg]
      simpa [hs] using ih
    · simp only [Bool.not_eq_true] at hs
      simp [hs, ih]

/-- C1 amended: the response's sector identifiers are strictly sorted (in
particular pairwise distinct), and a sector appears iff it occurs in the
input's sector key column AND at least one indicator group produced a
result for it — a sector all of whose groups are absent is omitted. -/
theorem api_entries_characterization (attr : AttrTable) (input : InputTable) :
    ((get_correlation_api attr input).map SectorEntry.sector).Sorted (· < ·) ∧
    ∀ s, s ∈ (get_correlation_api attr input).map SectorEntry.sector ↔
      (s ∈ input.rows.map Prod.fst ∧
        (groupMatricesFor attr (sectorSlice input s)).isEmpty = false) := by
  constructor
  · rw [api_sectors_eq_filter]
    have hsorted : ((pdUnique (input.rows.map Prod.fst)).insertionSort
        (· ≤ ·)).Sorted (· ≤ ·) := List.sorted_insertionSort _ _
    have hnodup : ((pdUnique (input.rows.map Prod.fst)).insertionSort
        (· ≤ ·)).Nodup :=
      ((List.perm_insertionSort _ _).nodup_iff).mpr (nodup_pdUniqueAux _ _)
    exact (hsorted.lt_of_le hnodup).sublist (List.filter_sublist _)
  · intro s
    rw [api_sectors_eq_filter, List.mem_filter, List.mem_insertionSort, mem_pdUnique]
    simp [Bool.not_eq_true']

/-- An input with one sector whose three rows carry the constant columns of
`constDF`, so group `"G"` produces a result. -/
def constInput : InputTable :=
  ⟨["A", "B"],
   [("s", [some 1, some 1]), ("s", [some 1, some 1]), ("s", [some 1, some 1])]⟩

/-- Witness for C1 (amended): sector `"s"` of `constInput` produces a group
result and therefore appears among the response's sector identifiers. -/
theorem api_entries_characterization_witness :
    "s" ∈ (get_correlation_api attrGAB constInput).map SectorEntry.sector := by
  refine ((api_entries_characterization attrGAB constInput).2 "s").mpr ⟨?_, ?_⟩
  · simp [constInput]
  · have hslice : sectorSlice constInput "s" = constDF := rfl
    rw [hslice]
    have hcols : constDF.cols = ["A", "B"] := rfl
    simp [groupMatricesFor, get_fields_for_group, pdUnique, pdUniqueAux, attrGAB,
      hcols, List.filterMap_cons, List.filter_cons, calc_constDF]

/-- An input whose only sector has no indicator columns at all, so every
group is skipped. -/
def emptyColsInput : InputTable := ⟨[], [("s", [])]⟩

/-- C1 counterexample: the input holds the sector `"s"`, but the response
is empty — a sector for which no indicator group produced a result does not
appear, contradicting "every distinct sector appears as one entry". -/
theorem api_omits_sector_without_results :
    get_correlation_api attrGAB emptyColsInput = [] ∧
      "s" ∈ emptyColsInput.rows.map Prod.fst := by
  constructor
  · rw [get_correlation_api]
    have hkeys : (pdUnique (emptyColsInput.rows.map Prod.fst)).insertionSort (· ≤ ·)
        = ["s"] := by
      simp [emptyColsInput, pdUnique, pdUniqueAux, List.insertionSort,
        List.orderedInsert]
    rw [hkeys]
    simp [groupMatricesFor, get_fields_for_group, pdUnique, pdUniqueAux,
      sectorSlice, attrGAB, emptyColsInput, List.filterMap_cons, List.filter_cons]
  · simp [emptyColsInput]

end ClusteringCompany
